import Mathlib

/-!
Verification of the prosody core of `backend/prosody.py`: the tone
classifier `detect_tone` and the speech shaper `format_for_tts`, together
with its helpers `_split_sentences` and `_soften_existing_name`.

Python strings are embedded as `List Char`; each definition mirrors the
corresponding Python function line by line.  `str.lower()` is modelled on
the ASCII range, which covers every character occurring in the keyword
lists (the only non-ASCII characters there are the curly apostrophe and
the ellipsis glyph, both of which `lower` leaves unchanged).
-/

/-- Straight apostrophe, U+0027 (kept out of string literals). -/
def ap : Char := Char.ofNat 39

/-- Curly right single quote, U+2019, as it appears in the keyword lists. -/
def cq : Char := Char.ofNat 8217

/-- ASCII lowercasing of one character, as `str.lower()` acts on ASCII. -/
def lowerChar (c : Char) : Char :=
  if 65 ≤ c.toNat ∧ c.toNat ≤ 90 then Char.ofNat (c.toNat + 32) else c

/-- Lowercasing of a whole string (`text.lower()`). -/
def lowerStr (s : List Char) : List Char := s.map lowerChar

/-- Boolean list-prefix test (used to realise Python substring search). -/
def isPrefixB : List Char → List Char → Bool
  | [], _ => true
  | _ :: _, [] => false
  | c :: cs, d :: ds => c == d && isPrefixB cs ds

/-- Boolean substring containment: Python `needle in hay`. -/
def containsB (needle : List Char) : List Char → Bool
  | [] => isPrefixB needle []
  | c :: rest => isPrefixB needle (c :: rest) || containsB needle rest

/-- Python `any(k in t for k in keywords)`. -/
def anyKey (keywords : List (List Char)) (t : List Char) : Bool :=
  keywords.any (fun k => containsB k t)

/-- Boolean suffix test: Python `s.endswith(suf)`. -/
def endsWithB (s suf : List Char) : Bool := isPrefixB suf.reverse s.reverse

/-- Tone constants of `prosody.py`. -/
def TONE_EXCITED : List Char := "excited".data
def TONE_NEUTRAL : List Char := "neutral".data
def TONE_HAPPY : List Char := "happy".data
def TONE_SYMPATHETIC : List Char := "sympathetic".data
def TONE_BUMMED : List Char := "bummed".data
def TONE_REASSURING : List Char := "reassuring".data
def TONE_ENCOURAGING : List Char := "encouraging".data
def TONE_PLAYFUL : List Char := "playful".data
def TONE_INTRIGUED : List Char := "intrigued".data
def TONE_CAUTION : List Char := "caution".data

/-- `sad_keywords` of `detect_tone` (the sympathetic group). -/
def sad_keywords : List (List Char) := [
  "i".data ++ ap :: "m sorry".data, "i am sorry".data,
  "that sounds really hard".data,
  "that sounds tough".data, "i know this is hard".data,
  "i know this is tough".data, "i can see why".data,
  "i understand this is".data,
  "it makes sense you feel".data, "i get why you feel".data]

/-- `bummed_keywords` of `detect_tone`. -/
def bummed_keywords : List (List Char) := [
  "that really sucks".data, "that sucks".data,
  "that".data ++ ap :: "s rough".data, "that".data ++ cq :: "s rough".data,
  "that".data ++ cq :: "s not fair".data, "that is not fair".data]

/-- `reassuring_keywords` of `detect_tone`. -/
def reassuring_keywords : List (List Char) := [
  "don".data ++ ap :: "t worry".data, "do not worry".data,
  "you".data ++ ap :: "re not alone".data, "you are not alone".data,
  "it".data ++ ap :: "s okay to".data, "it".data ++ cq :: "s okay to".data,
  "it".data ++ ap :: "s ok to".data, "it".data ++ cq :: "s ok to".data,
  "it".data ++ ap :: "s understandable".data,
  "it".data ++ cq :: "s understandable".data,
  "you".data ++ ap :: "re doing your best".data,
  "you are doing your best".data]

/-- `encouraging_keywords` of `detect_tone`. -/
def encouraging_keywords : List (List Char) := [
  "you".data ++ ap :: "ve got this".data, "you got this".data,
  "i believe in you".data, "i".data ++ cq :: "m proud of you".data,
  "i am proud of you".data,
  "keep going".data, "keep at it".data,
  "this is a great step".data, "this is a good step".data,
  "you".data ++ cq :: "re doing great".data,
  "you".data ++ ap :: "re doing great".data]

/-- `happy_keywords` of `detect_tone`. -/
def happy_keywords : List (List Char) := [
  "that".data ++ ap :: "s great".data, "that".data ++ cq :: "s great".data,
  "that".data ++ ap :: "s awesome".data, "that".data ++ cq :: "s awesome".data,
  "that".data ++ ap :: "s fantastic".data,
  "that".data ++ cq :: "s fantastic".data,
  "i".data ++ ap :: "m glad".data, "i am glad".data,
  "i".data ++ ap :: "m happy for you".data, "i am happy for you".data,
  "congratulations".data, "congrats".data]

/-- `playful_keywords` of `detect_tone`. -/
def playful_keywords : List (List Char) := [
  "haha".data, "lol".data, "just kidding".data,
  "couldn".data ++ cq :: "t resist".data, "couldn".data ++ ap :: "t resist".data,
  "little bit cheeky".data,
  "let".data ++ ap :: "s have some fun".data,
  "let".data ++ cq :: "s have some fun".data]

/-- `intrigued_keywords` of `detect_tone`. -/
def intrigued_keywords : List (List Char) := [
  "i".data ++ ap :: "m curious".data, "i am curious".data,
  "interesting question".data,
  "that".data ++ ap :: "s interesting".data,
  "that".data ++ cq :: "s interesting".data,
  "let".data ++ ap :: "s unpack".data, "let".data ++ cq :: "s unpack".data,
  "i wonder".data, "makes me wonder".data]

/-- `caution_keywords` of `detect_tone`. -/
def caution_keywords : List (List Char) := [
  "be careful".data,
  "you".data ++ cq :: "ll want to be careful".data,
  "you will want to be careful".data,
  "this might be risky".data, "this could be risky".data,
  "i".data ++ cq :: "d strongly recommend".data,
  "i would strongly recommend".data,
  "i".data ++ cq :: "d avoid".data, "i would avoid".data,
  "it".data ++ cq :: "s important to".data,
  "it".data ++ ap :: "s important to".data]

/-- `excited_keywords` of `detect_tone`. -/
def excited_keywords : List (List Char) := [
  "this is huge".data, "i".data ++ ap :: "m so excited".data,
  "i am so excited".data,
  "this is amazing".data, "i".data ++ ap :: "m really excited".data,
  "i am really excited".data,
  "this is incredible".data, "that".data ++ cq :: "s incredible".data,
  "that".data ++ ap :: "s incredible".data,
  "this is insane".data, "that".data ++ ap :: "s insane".data,
  "that".data ++ cq :: "s insane".data]

/-- `detect_tone` of `prosody.py`: first matching keyword group wins, in
the fixed order sympathetic, bummed, reassuring, encouraging, happy,
playful, intrigued, caution, excited; empty input and no match give
neutral. -/
def detect_tone (text : List Char) : List Char :=
  if text == [] then TONE_NEUTRAL else
  let t := lowerStr text
  if anyKey sad_keywords t then TONE_SYMPATHETIC else
  if anyKey bummed_keywords t then TONE_BUMMED else
  if anyKey reassuring_keywords t then TONE_REASSURING else
  if anyKey encouraging_keywords t then TONE_ENCOURAGING else
  if anyKey happy_keywords t then TONE_HAPPY else
  if anyKey playful_keywords t then TONE_PLAYFUL else
  if anyKey intrigued_keywords t then TONE_INTRIGUED else
  if anyKey caution_keywords t then TONE_CAUTION else
  if anyKey excited_keywords t then TONE_EXCITED else
  TONE_NEUTRAL

/-- The closed ten-label tone set, as listed in the module constants. -/
def toneList : List (List Char) := [
  TONE_EXCITED, TONE_NEUTRAL, TONE_HAPPY, TONE_SYMPATHETIC, TONE_BUMMED,
  TONE_REASSURING, TONE_ENCOURAGING, TONE_PLAYFUL, TONE_INTRIGUED,
  TONE_CAUTION]

/-- The nine keyword groups in evaluation order. -/
def allGroups : List (List (List Char)) := [
  sad_keywords, bummed_keywords, reassuring_keywords, encouraging_keywords,
  happy_keywords, playful_keywords, intrigued_keywords, caution_keywords,
  excited_keywords]

/-- Whitespace characters stripped by Python `str.strip()` and matched by
the regex class in `re.sub(r"\s+\.", ".", ...)` (ASCII range). -/
def isWs (c : Char) : Bool :=
  c == ' ' || c == '\t' || c == '\n' || c == '\r' ||
  c == Char.ofNat 11 || c == Char.ofNat 12

/-- Python `s.lstrip()`. -/
def stripL (s : List Char) : List Char := s.dropWhile isWs

/-- Python `s.rstrip()`. -/
def stripR (s : List Char) : List Char := (s.reverse.dropWhile isWs).reverse

/-- Python `s.strip()`. -/
def strip (s : List Char) : List Char := stripR (stripL s)

/-- Sentence delimiters of `_split_sentences`: the class `[.?!]`. -/
def isDelim (c : Char) : Bool := c == '.' || c == '?' || c == '!'

/-- Accumulating scan of `_split_sentences`: build up `current`, flush
`current.strip()` (with the delimiter attached) at each `.?!`, and flush a
final non-blank remainder.  This realises exactly the Python loop over
`re.split(r"([.?!])", text)` (empty parts are skipped there, and a text
part always follows a flush, so character-at-a-time accumulation agrees
with part-at-a-time accumulation). -/
def splitAux : List Char → List Char → List (List Char)
  | current, [] => if strip current == [] then [] else [strip current]
  | current, c :: rest =>
    if isDelim c then strip (current ++ [c]) :: splitAux [] rest
    else splitAux (current ++ [c]) rest

/-- `_split_sentences` of `prosody.py`, including the `[text.strip()]`
fallback for the case where the scan produced no sentences. -/
def split_sentences (text : List Char) : List (List Char) :=
  let sentences := splitAux [] text
  if sentences == [] then [strip text] else sentences

/-- Characters of the regex class `[, ]` (the separator after a name). -/
def isSep (c : Char) : Bool := c == ',' || c == ' '

/-- Range test for the regex class `[A-Z]`. -/
def isUpperAZ (c : Char) : Bool := 65 ≤ c.toNat && c.toNat ≤ 90

/-- Range test for the regex class `[a-z]`. -/
def isLowerAZ (c : Char) : Bool := 97 ≤ c.toNat && c.toNat ≤ 122

/-- Semantics of the tail `(.*)$` of the name regex: `.` cannot cross a
newline and `$` matches at the end or just before one final newline, so
the capture succeeds exactly when the remainder has no newline except
possibly a single trailing one (which is then not captured). -/
def dotStarCapture (l : List Char) : Option (List Char) :=
  if l.contains '\n' then
    if l.dropLast.contains '\n' then none else some l.dropLast
  else some l

/-- Matching of `re.match(r"^([A-Z][a-z]{1,20})([, ]+)(.*)$", s)`,
returning the three captured groups.  Greedy matching with backtracking
reduces to: a capital, a maximal lowercase run of length 1..20 (a longer
run can never backtrack into a separator), then a maximal separator run,
then the `(.*)$` capture. -/
def nameMatch (s : List Char) : Option (List Char × List Char × List Char) :=
  match s with
  | [] => none
  | c :: rest =>
    if isUpperAZ c then
      let low := rest.takeWhile isLowerAZ
      let after := rest.dropWhile isLowerAZ
      if 1 ≤ low.length && low.length ≤ 20 then
        match after with
        | [] => none
        | d :: _ =>
          if isSep d then
            match dotStarCapture (after.dropWhile isSep) with
            | some captured => some (c :: low, after.takeWhile isSep, captured)
            | none => none
          else none
      else none
    else none

/-- Body of the first-sentence rewrite of `_soften_existing_name`:
`f"{name}... {rest}"` after `rest.lstrip()`, or `f"{name}..."`. -/
def softenSentence (s : List Char) : List Char :=
  match nameMatch s with
  | none => s
  | some (name, _, rest0) =>
    let rest := stripL rest0
    if rest == [] then name ++ "...".data
    else name ++ "... ".data ++ rest

/-- `_soften_existing_name` of `prosody.py`: identity unless the tone is
sympathetic, in which case only the sentence at index 0 is rewritten. -/
def soften_existing_name (sentences : List (List Char)) (tone : List Char) :
    List (List Char) :=
  if tone != TONE_SYMPATHETIC then sentences
  else
    match sentences with
    | [] => []
    | s :: rest => softenSentence s :: rest

/-- The emotionally-loaded marker words of the sympathetic/bummed branch. -/
def loadedWords : List (List Char) := [
  "sorry".data, "hard".data, "tough".data, "understand".data,
  "alone".data, "worried".data]

/-- A literal triple dot, Python `"..."`. -/
def dots3 : List Char := ['.', '.', '.']

/-- A literal exclamation mark, Python `"!"`. -/
def bang : List Char := ['!']

/-- The single ellipsis glyph, Python `"…"`. -/
def ell1 : List Char := ['…']

/-- One step of the sympathetic/bummed branch body: append `"..."` when
the lowercased sentence contains a loaded word and the sentence does not
already end with `"..."`. -/
def decorateSymp (s : List Char) : List Char :=
  if anyKey loadedWords (lowerStr s) && !endsWithB s dots3 then s ++ dots3
  else s

/-- The sympathetic/bummed assembly loop: one sentence per line, and an
empty line after each odd-indexed sentence. -/
def sympShape : Nat → List (List Char) → List (List Char)
  | _, [] => []
  | i, s :: rest =>
    if i % 2 == 1 then decorateSymp s :: [] :: sympShape (i + 1) rest
    else decorateSymp s :: sympShape (i + 1) rest

/-- Python `" ".join(buffer)`. -/
def joinSpace : List (List Char) → List Char
  | [] => []
  | [s] => s
  | s :: r :: rest => s ++ ' ' :: joinSpace (r :: rest)

/-- The greedy buffering loop shared by the upbeat and neutral branches:
flush the space-joined buffer as a line whenever its length exceeds
`limit`, and flush any non-empty remainder at the end. -/
def bufferGo (limit : Nat) : List (List Char) → List (List Char) →
    List (List Char)
  | buffer, [] => if buffer.isEmpty then [] else [joinSpace buffer]
  | buffer, s :: rest =>
    let joined := joinSpace (buffer ++ [s])
    if limit < joined.length then joined :: bufferGo limit [] rest
    else bufferGo limit (buffer ++ [s]) rest

/-- Buffered line assembly starting from an empty buffer. -/
def bufferLines (limit : Nat) (sentences : List (List Char)) :
    List (List Char) :=
  bufferGo limit [] sentences

/-- The closing "lift" applied to the last line of the upbeat branch. -/
def liftLine (tone last : List Char) : List Char :=
  if tone == TONE_ENCOURAGING || tone == TONE_REASSURING ||
      tone == TONE_PLAYFUL then
    if endsWithB last bang || endsWithB last ell1 ||
        endsWithB last dots3 then last
    else last ++ dots3
  else if tone == TONE_HAPPY || tone == TONE_EXCITED then
    if endsWithB last bang then last else last ++ bang
  else last

/-- `if shaped_lines: shaped_lines[-1] = lift(shaped_lines[-1])`. -/
def applyLift (tone : List Char) (ls : List (List Char)) :
    List (List Char) :=
  match ls.getLast? with
  | none => ls
  | some last => ls.dropLast ++ [liftLine tone last]

/-- The caution branch: each sentence followed by a blank line. -/
def cautionShape : List (List Char) → List (List Char)
  | [] => []
  | s :: rest => s :: [] :: cautionShape rest

/-- The five behavioural upbeat tones of the `elif tone in (...)` test. -/
def upbeatTones : List (List Char) := [
  TONE_ENCOURAGING, TONE_HAPPY, TONE_REASSURING, TONE_PLAYFUL, TONE_EXCITED]

/-- The tone-dispatched line assembly of `format_for_tts`. -/
def assembleLines (tone : List Char) (sentences : List (List Char)) :
    List (List Char) :=
  if tone == TONE_SYMPATHETIC || tone == TONE_BUMMED then
    sympShape 0 sentences
  else if upbeatTones.contains tone then
    applyLift tone (bufferLines 80 sentences)
  else if tone == TONE_CAUTION then
    cautionShape sentences
  else
    bufferLines 100 sentences

/-- A line is blank when it strips to nothing: `not line.strip()`. -/
def isBlank (l : List Char) : Bool := strip l == []

/-- The two `while` loops that pop blank lines from both ends. -/
def trimBlankEnds (ls : List (List Char)) : List (List Char) :=
  (((ls.dropWhile isBlank).reverse).dropWhile isBlank).reverse

/-- Python `"\n\n".join(lines)`. -/
def joinNN : List (List Char) → List Char
  | [] => []
  | [l] => l
  | l :: r :: rest => l ++ '\n' :: '\n' :: joinNN (r :: rest)

/-- Python `out.replace("...", "…")`: left-to-right, non-overlapping. -/
def replaceDots : List Char → List Char
  | '.' :: '.' :: '.' :: rest => '…' :: replaceDots rest
  | c :: rest => c :: replaceDots rest
  | [] => []

/-- Does the string begin with whitespace-run-then-period (the shape that
makes a whitespace character part of a `\s+\.` match)? -/
def startsWsDot : List Char → Bool
  | [] => false
  | c :: rest => c == '.' || (isWs c && startsWsDot rest)

/-- Python `re.sub(r"\s+\.", ".", out)`: delete every whitespace
character that is followed, through whitespace, by a period. -/
def collapseWsDot : List Char → List Char
  | [] => []
  | c :: rest =>
    if isWs c && startsWsDot rest then collapseWsDot rest
    else c :: collapseWsDot rest

/-- The final normalization of `format_for_tts`: `"..."` to `"…"`, then
collapse whitespace before periods. -/
def normalizeOut (s : List Char) : List Char := collapseWsDot (replaceDots s)

/-- `format_for_tts` of `prosody.py`. -/
def format_for_tts (text0 : List Char) : List Char :=
  let text := strip text0
  if text == [] then text
  else
    let tone := detect_tone text
    let sentences := soften_existing_name (split_sentences text) tone
    let shaped := trimBlankEnds (assembleLines tone sentences)
    let out := if shaped == [] then text else joinNN shaped
    normalizeOut out

/-- Does the string contain a whitespace character followed, through
whitespace, by a period (i.e. a `\s+\.` match)?  Equivalently — since the
last whitespace character of such a run sits directly before the period —
does some whitespace character immediately precede a period? -/
def hasWsDot : List Char → Bool
  | [] => false
  | c :: rest => (isWs c && startsWsDot rest) || hasWsDot rest

/-- Does the string contain a literal triple dot? -/
def hasTriple (s : List Char) : Bool := containsB dots3 s

/-- The straight-apostrophe spelling of the caution phrase. -/
def straightRecommend : List Char :=
  "i".data ++ ap :: "d strongly recommend".data

/-- The curly-apostrophe spelling of the caution phrase, as listed. -/
def curlyRecommend : List Char :=
  "i".data ++ cq :: "d strongly recommend".data

theorem isPrefixB_length {k l : List Char} (h : isPrefixB k l = true) :
    k.length ≤ l.length := by
  induction k generalizing l with
  | nil => simp
  | cons c cs ih =>
    cases l with
    | nil => simp [isPrefixB] at h
    | cons d ds =>
      simp only [isPrefixB, Bool.and_eq_true] at h
      simpa using ih h.2

theorem containsB_length {k l : List Char} (h : containsB k l = true) :
    k.length ≤ l.length := by
  induction l with
  | nil =>
    cases k with
    | nil => simp
    | cons c cs => simp [containsB, isPrefixB] at h
  | cons c rest ih =>
    simp only [containsB, Bool.or_eq_true] at h
    rcases h with h | h
    · exact isPrefixB_length h
    · exact le_trans (ih h) (by simp)

theorem length_lowerStr (t : List Char) : (lowerStr t).length = t.length :=
  List.length_map t lowerChar

/-- C1: any input containing a sympathetic-group phrase (in its lowercased
form) classifies as sympathetic, regardless of which later-priority-group
phrases also occur: the sympathetic group is tested first and
short-circuits every later group. -/
theorem detect_tone_sympathetic_priority (t : List Char)
    (h : ∃ k ∈ sad_keywords, containsB k (lowerStr t) = true) :
    detect_tone t = TONE_SYMPATHETIC := by
  obtain ⟨k, hk, hc⟩ := h
  have hkne : 0 < k.length := by
    have : ∀ k ∈ sad_keywords, 0 < k.length := by decide
    exact this k hk
  have htne : (t == []) = false := by
    have hlen : 0 < t.length := by
      have := containsB_length hc
      rw [length_lowerStr] at this
      omega
    rcases t with _ | _
    · simp at hlen
    · rfl
  have hsad : anyKey sad_keywords (lowerStr t) = true := by
    simp only [anyKey, List.any_eq_true]
    exact ⟨k, hk, hc⟩
  simp [detect_tone, htne, hsad]

/-- C1 witness: a text containing both a sympathetic phrase and a happy
phrase classifies as sympathetic. -/
theorem detect_tone_sympathetic_priority_witness :
    (∃ k ∈ sad_keywords,
        containsB k (lowerStr ("I am sorry, but congrats!".data)) = true) ∧
    detect_tone ("I am sorry, but congrats!".data) = TONE_SYMPATHETIC :=
  ⟨by decide,
   detect_tone_sympathetic_priority ("I am sorry, but congrats!".data)
     (by decide)⟩

/-- C2: `detect_tone` is total (it is a Lean function) and its range is
exactly the ten tone labels: every output is in the list, every label is
attained, the empty input gives neutral, and neutral is the result
whenever no keyword group matches. -/
theorem detect_tone_range :
    (∀ t, detect_tone t ∈ toneList) ∧
    (∀ l ∈ toneList, ∃ t, detect_tone t = l) ∧
    detect_tone [] = TONE_NEUTRAL ∧
    (∀ t, (∀ g ∈ allGroups, anyKey g (lowerStr t) = false) →
      detect_tone t = TONE_NEUTRAL) := by
  refine ⟨?_, ?_, by decide, ?_⟩
  · intro t
    simp only [detect_tone]
    repeat' split
    all_goals decide
  · intro l hl
    simp only [toneList, List.mem_cons, List.not_mem_nil, or_false] at hl
    rcases hl with rfl | rfl | rfl | rfl | rfl | rfl | rfl | rfl | rfl | rfl
    · exact ⟨("this is huge".data), by decide⟩
    · exact ⟨("hello".data), by decide⟩
    · exact ⟨("congrats".data), by decide⟩
    · exact ⟨("i am sorry".data), by decide⟩
    · exact ⟨("that is not fair".data), by decide⟩
    · exact ⟨("do not worry".data), by decide⟩
    · exact ⟨("keep going".data), by decide⟩
    · exact ⟨("haha".data), by decide⟩
    · exact ⟨("i wonder".data), by decide⟩
    · exact ⟨("be careful".data), by decide⟩
  · intro t h
    have h1 := h sad_keywords (by simp [allGroups])
    have h2 := h bummed_keywords (by simp [allGroups])
    have h3 := h reassuring_keywords (by simp [allGroups])
    have h4 := h encouraging_keywords (by simp [allGroups])
    have h5 := h happy_keywords (by simp [allGroups])
    have h6 := h playful_keywords (by simp [allGroups])
    have h7 := h intrigued_keywords (by simp [allGroups])
    have h8 := h caution_keywords (by simp [allGroups])
    have h9 := h excited_keywords (by simp [allGroups])
    by_cases ht : t = []
    · subst ht; decide
    · simp [detect_tone, ht, h1, h2, h3, h4, h5, h6, h7, h8, h9]

/-- C2 witness: the range facts applied to concrete inputs. -/
theorem detect_tone_range_witness :
    detect_tone ("hello".data) ∈ toneList ∧
    (∃ t, detect_tone t = TONE_HAPPY) ∧
    detect_tone ("hello".data) = TONE_NEUTRAL :=
  ⟨detect_tone_range.1 ("hello".data),
   detect_tone_range.2.1 TONE_HAPPY (by decide),
   detect_tone_range.2.2.2 ("hello".data) (by decide)⟩

/-- C3: both operations are total Lean functions, and `format_for_tts` on
an input that strips to nothing returns the stripped (empty) input
unchanged: the early-return branch fires before any shaping. -/
theorem format_for_tts_blank (t : List Char) (h : strip t = []) :
    format_for_tts t = strip t := by
  simp [format_for_tts, h]

/-- C3 witness: whitespace-only input. -/
theorem format_for_tts_blank_witness :
    strip ("   ".data) = [] ∧
    format_for_tts ("   ".data) = strip ("   ".data) :=
  ⟨by decide, format_for_tts_blank ("   ".data) (by decide)⟩

/-- C4 counterexample: the straight-apostrophe spelling of
"i'd strongly recommend" is not a caution keyword, so an input consisting
of exactly that phrase classifies as neutral, not caution. -/
theorem caution_straight_apostrophe_cex :
    detect_tone straightRecommend = TONE_NEUTRAL ∧
    detect_tone straightRecommend ≠ TONE_CAUTION := by
  decide

/-- C4 amended: some apostrophe phrases are listed in both glyph variants
(for example "it's important to"), but not all of them: the caution phrase
"i'd strongly recommend" is listed only with the curly apostrophe (its
straight-apostrophe coverage is the expanded form "i would strongly
recommend"), so the curly spelling classifies as caution while the
straight spelling classifies as neutral. -/
theorem caution_apostrophe_variants :
    ("it".data ++ ap :: "s important to".data) ∈ caution_keywords ∧
    ("it".data ++ cq :: "s important to".data) ∈ caution_keywords ∧
    curlyRecommend ∈ caution_keywords ∧
    straightRecommend ∉ caution_keywords ∧
    detect_tone curlyRecommend = TONE_CAUTION ∧
    detect_tone straightRecommend = TONE_NEUTRAL := by
  decide

theorem decorateSymp_isEmpty (c : Char) (cs : List Char) :
    (decorateSymp (c :: cs)).isEmpty = false := by
  unfold decorateSymp
  split <;> simp

theorem sympShape_filter (i : Nat) (ss : List (List Char))
    (h : ∀ s ∈ ss, s ≠ []) :
    (sympShape i ss).filter (fun l => !l.isEmpty) = ss.map decorateSymp := by
  induction ss generalizing i with
  | nil => simp [sympShape]
  | cons s rest ih =>
    have hs : s ≠ [] := h s (by simp)
    obtain ⟨c, cs, rfl⟩ : ∃ c cs, s = c :: cs := by
      cases s with
      | nil => exact absurd rfl hs
      | cons c cs => exact ⟨c, cs, rfl⟩
    have hrest : ∀ x ∈ rest, x ≠ [] := fun x hx => h x (by simp [hx])
    simp only [sympShape]
    split <;>
      simp [List.filter_cons, decorateSymp_isEmpty, ih (i + 1) hrest]

/-- C6: the sympathetic/bummed assembly places one decorated sentence per
line in segmentation order with a blank line inserted after each
odd-indexed sentence (closed form over `enumFrom`); dropping the blank
lines leaves exactly the decorated sentences in order, where decoration
appends a trailing ellipsis to sentences containing a loaded marker word
unless one is already present; and a single loaded sentence gets the
ellipsis appended and no blank line (index 0 is even), with no crash. -/
theorem symp_assembly :
    (∀ (i : Nat) (ss : List (List Char)), sympShape i ss =
      (ss.enumFrom i).flatMap
        (fun p => decorateSymp p.2 :: if p.1 % 2 == 1 then [[]] else [])) ∧
    (∀ ss : List (List Char), (∀ s ∈ ss, s ≠ []) →
      (sympShape 0 ss).filter (fun l => !l.isEmpty) = ss.map decorateSymp) ∧
    (∀ s : List Char, anyKey loadedWords (lowerStr s) = true →
      endsWithB s dots3 = false → sympShape 0 [s] = [s ++ dots3]) := by
  refine ⟨?_, fun ss h => sympShape_filter 0 ss h, ?_⟩
  · intro i ss
    induction ss generalizing i with
    | nil => simp [sympShape]
    | cons s rest ih =>
      simp only [sympShape, List.enumFrom, List.flatMap_cons, ih]
      split <;> simp
  · intro s hl he
    simp [sympShape, decorateSymp, hl, he]

/-- C6 witness: the closed form on three sentences, the filtered form on
one sentence, and the single loaded word "hard". -/
theorem symp_assembly_witness :
    sympShape 0 [("a.".data), ("b.".data), ("c.".data)] =
      (([("a.".data), ("b.".data), ("c.".data)]).enumFrom 0).flatMap
        (fun p => decorateSymp p.2 :: if p.1 % 2 == 1 then [[]] else []) ∧
    (sympShape 0 [("hard".data)]).filter (fun l => !l.isEmpty) =
      [("hard".data)].map decorateSymp ∧
    sympShape 0 [("hard".data)] = [("hard".data) ++ dots3] :=
  ⟨symp_assembly.1 0 _,
   symp_assembly.2.1 [("hard".data)] (by decide),
   symp_assembly.2.2 ("hard".data) (by decide) (by decide)⟩

/-- C7: a sympathetic input whose first sentence is
"John, that sounds really hard" shapes to output beginning
"John… that sounds really hard…" (name pause inserted and loaded-word
ellipsis appended; here the whole output); the softening pass rewrites
only the first sentence and keeps all others; it is the identity for any
non-sympathetic tone; and it does not fire when the first sentence does
not match the capitalized-name-plus-separator shape. -/
theorem name_softening :
    format_for_tts ("John, that sounds really hard".data) =
      "John… that sounds really hard…".data ∧
    (∀ (s : List Char) (rest : List (List Char)),
      soften_existing_name (s :: rest) TONE_SYMPATHETIC =
        softenSentence s :: rest) ∧
    (∀ (ss : List (List Char)) (tone : List Char),
      tone ≠ TONE_SYMPATHETIC → soften_existing_name ss tone = ss) ∧
    (∀ (s : List Char) (rest : List (List Char)), nameMatch s = none →
      soften_existing_name (s :: rest) TONE_SYMPATHETIC = s :: rest) := by
  refine ⟨by decide, ?_, ?_, ?_⟩
  · intro s rest
    simp [soften_existing_name]
  · intro ss tone h
    simp [soften_existing_name, bne_iff_ne, h]
  · intro s rest h
    simp [soften_existing_name, softenSentence, h]

/-- C7 witness: the softening pass applied to concrete sentence lists. -/
theorem name_softening_witness :
    nameMatch ("no name here".data) = none ∧
    soften_existing_name [("no name here".data)] TONE_SYMPATHETIC =
      [("no name here".data)] ∧
    TONE_NEUTRAL ≠ TONE_SYMPATHETIC ∧
    soften_existing_name [("John".data)] TONE_NEUTRAL = [("John".data)] :=
  ⟨by decide, name_softening.2.2.2 ("no name here".data) [] (by decide),
   by decide, name_softening.2.2.1 [("John".data)] TONE_NEUTRAL (by decide)⟩

theorem stripL_append_nonws (cur : List Char) {c : Char} (h : isWs c = false) :
    stripL (cur ++ [c]) = stripL cur ++ [c] := by
  induction cur with
  | nil => simp [stripL, h]
  | cons d rest ih =>
    simp only [List.cons_append, stripL, List.dropWhile_cons]
    split <;> simp_all [stripL]

theorem stripR_append_nonws (x : List Char) {c : Char} (h : isWs c = false) :
    stripR (x ++ [c]) = x ++ [c] := by
  simp [stripR, List.dropWhile_cons, h]

theorem strip_append_nonws (cur : List Char) {c : Char} (h : isWs c = false) :
    strip (cur ++ [c]) = stripL cur ++ [c] := by
  simp only [strip]
  rw [stripL_append_nonws cur h]
  exact stripR_append_nonws _ h

theorem isDelim_not_ws {c : Char} (h : isDelim c = true) : isWs c = false := by
  simp only [isDelim, Bool.or_eq_true, beq_iff_eq] at h
  rcases h with (rfl | rfl) | rfl <;> decide

theorem splitAux_append (l2 : List Char) {d : Char} (hd : isDelim d = true) :
    ∀ l1 : List Char, l1.getLast? = some d →
    ∀ cur, splitAux cur (l1 ++ l2) = splitAux cur l1 ++ splitAux [] l2 := by
  intro l1
  induction l1 with
  | nil => intro h; simp at h
  | cons c rest ih =>
    intro hlast cur
    cases rest with
    | nil =>
      obtain rfl : c = d := by simpa using hlast
      simp only [List.singleton_append, splitAux, hd, if_true]
      have h0 : ((strip ([] : List Char) == []) = true) := by decide
      simp [h0]
    | cons e rest2 =>
      have hlast2 : (e :: rest2).getLast? = some d := by
        rwa [List.getLast?_cons_cons] at hlast
      rw [List.cons_append, splitAux.eq_2, splitAux.eq_2]
      by_cases hc : isDelim c = true
      · rw [if_pos hc, if_pos hc, ih hlast2 []]
        simp
      · rw [if_neg hc, if_neg hc, ih hlast2 (cur ++ [c])]

theorem splitAux_noDelim :
    ∀ frag : List Char, (∀ c ∈ frag, isDelim c = false) →
    ∀ cur, splitAux cur frag =
      if strip (cur ++ frag) == [] then [] else [strip (cur ++ frag)] := by
  intro frag
  induction frag with
  | nil => intro h cur; simp [splitAux]
  | cons c rest ih =>
    intro h cur
    have hc := h c (by simp)
    simp only [splitAux, hc, Bool.false_eq_true, if_false]
    rw [ih (fun x hx => h x (by simp [hx])) (cur ++ [c])]
    simp

theorem splitAux_dropLast_delim :
    ∀ l cur : List Char, ∀ s ∈ (splitAux cur l).dropLast,
      ∃ d, isDelim d = true ∧ s.getLast? = some d := by
  intro l
  induction l with
  | nil =>
    intro cur s hs
    simp only [splitAux] at hs
    split at hs <;> simp at hs
  | cons c rest ih =>
    intro cur s hs
    simp only [splitAux] at hs
    split at hs
    · rename_i hc
      cases hrest : splitAux [] rest with
      | nil => rw [hrest] at hs; simp at hs
      | cons y ys =>
        rw [hrest, List.dropLast_cons₂] at hs
        rcases List.mem_cons.mp hs with rfl | hs2
        · refine ⟨c, hc, ?_⟩
          rw [strip_append_nonws cur (isDelim_not_ws hc)]
          exact List.getLast?_concat _
        · have h2 := ih []
          rw [hrest] at h2
          exact h2 s hs2
    · exact ih (cur ++ [c]) s hs

theorem strip_eq_nil_of_ws {l : List Char} (h : ∀ c ∈ l, isWs c = true) :
    strip l = [] := by
  have h1 : stripL l = [] := by
    simp only [stripL, List.dropWhile_eq_nil_iff]
    exact h
  simp [strip, h1, stripR]

/-- C8: segmentation keeps each delimiter attached to the sentence it
terminates (every non-final sentence ends with a delimiter), is
compositional across a delimiter boundary (hence preserves the order of
the input), turns a trailing unterminated fragment into a final stripped
sentence, and falls back to the single stripped input when the scan
yields no sentences. -/
theorem split_sentences_spec :
    (∀ (l1 l2 : List Char) (d : Char), isDelim d = true →
      l1.getLast? = some d →
      splitAux [] (l1 ++ l2) = splitAux [] l1 ++ splitAux [] l2) ∧
    (∀ (l1 frag : List Char) (d : Char), isDelim d = true →
      l1.getLast? = some d → (∀ c ∈ frag, isDelim c = false) →
      strip frag ≠ [] →
      split_sentences (l1 ++ frag) = splitAux [] l1 ++ [strip frag]) ∧
    (∀ text : List Char, ∀ s ∈ (split_sentences text).dropLast,
      ∃ d, isDelim d = true ∧ s.getLast? = some d) ∧
    (∀ text : List Char, (∀ c ∈ text, isWs c = true) →
      split_sentences text = [strip text]) := by
  refine ⟨?_, ?_, ?_, ?_⟩
  · intro l1 l2 d hd hlast
    exact splitAux_append l2 hd l1 hlast []
  · intro l1 frag d hd hlast hfr hne
    have h1 : splitAux [] (l1 ++ frag) =
        splitAux [] l1 ++ splitAux [] frag :=
      splitAux_append frag hd l1 hlast []
    have h2 : splitAux [] frag = [strip frag] := by
      rw [splitAux_noDelim frag hfr []]
      simp only [List.nil_append]
      rw [if_neg]
      simpa using hne
    simp [split_sentences, h1, h2]
  · intro text s hs
    simp only [split_sentences] at hs
    split at hs
    · simp at hs
    · exact splitAux_dropLast_delim text [] s hs
  · intro text h
    have hnd : ∀ c ∈ text, isDelim c = false := by
      intro c hc
      have hw := h c hc
      cases hd : isDelim c with
      | false => rfl
      | true => rw [isDelim_not_ws hd] at hw; exact absurd hw (by decide)
    have h0 : splitAux [] text = [] := by
      rw [splitAux_noDelim text hnd []]
      simp only [List.nil_append]
      rw [if_pos]
      simp [strip_eq_nil_of_ws h]
    simp [split_sentences, h0]

/-- C8 witness: the four segmentation properties on concrete inputs. -/
theorem split_sentences_spec_witness :
    splitAux [] (("Hi.".data) ++ (" Go!".data)) =
      splitAux [] ("Hi.".data) ++ splitAux [] (" Go!".data) ∧
    split_sentences (("Hi.".data) ++ (" go on".data)) =
      splitAux [] ("Hi.".data) ++ [strip (" go on".data)] ∧
    (∃ d, isDelim d = true ∧ ("Hi.".data).getLast? = some d) ∧
    split_sentences ("  ".data) = [strip ("  ".data)] :=
  ⟨split_sentences_spec.1 ("Hi.".data) (" Go!".data) '.' (by decide)
     (by decide),
   split_sentences_spec.2.1 ("Hi.".data) (" go on".data) '.' (by decide)
     (by decide) (by decide) (by decide),
   split_sentences_spec.2.2.1 ("Hi. Go.".data) ("Hi.".data) (by decide),
   split_sentences_spec.2.2.2 ("  ".data) (by decide)⟩

theorem startsWsDot_collapseWsDot {l : List Char}
    (h : startsWsDot (collapseWsDot l) = true) : startsWsDot l = true := by
  induction l with
  | nil => simpa [collapseWsDot] using h
  | cons c rest ih =>
    simp only [collapseWsDot] at h
    split at h
    · rename_i hc
      rw [Bool.and_eq_true] at hc
      simp [startsWsDot, hc.1, hc.2]
    · simp only [startsWsDot, Bool.or_eq_true, Bool.and_eq_true] at h ⊢
      rcases h with h | ⟨hw, hs⟩
      · exact Or.inl h
      · exact Or.inr ⟨hw, ih hs⟩

theorem hasWsDot_collapseWsDot (l : List Char) :
    hasWsDot (collapseWsDot l) = false := by
  induction l with
  | nil => rfl
  | cons c rest ih =>
    simp only [collapseWsDot]
    split
    · exact ih
    · rename_i hc
      simp only [hasWsDot, Bool.or_eq_false_iff]
      refine ⟨?_, ih⟩
      cases hw : isWs c with
      | false => simp [hw]
      | true =>
        cases hs : startsWsDot (collapseWsDot rest) with
        | false => simp [hw, hs]
        | true => exact absurd (by simp [hw, startsWsDot_collapseWsDot hs]) hc

theorem collapseWsDot_id {l : List Char} (h : hasWsDot l = false) :
    collapseWsDot l = l := by
  induction l with
  | nil => rfl
  | cons c rest ih =>
    simp only [hasWsDot, Bool.or_eq_false_iff] at h
    simp [collapseWsDot, h.1, ih h.2]

theorem replaceDots_id (l : List Char) :
    hasTriple l = false → replaceDots l = l := by
  induction l using replaceDots.induct with
  | case1 rest ih =>
    intro h
    simp [hasTriple, containsB, isPrefixB, dots3] at h
  | case2 c rest hexc ih =>
    intro h
    simp only [hasTriple, containsB, Bool.or_eq_false_iff] at h
    have hstep : replaceDots (c :: rest) = c :: replaceDots rest := by
      simp [replaceDots]
    rw [hstep, ih h.2]
  | case3 => intro h; rfl

theorem replaceDots_head_dot (l : List Char) :
    ∀ r, replaceDots l = '.' :: r → ∃ q, l = '.' :: q := by
  induction l using replaceDots.induct with
  | case1 rest ih => exact fun r hr => ⟨'.' :: '.' :: rest, rfl⟩
  | case2 c rest hexc ih =>
    intro r hr
    rw [show replaceDots (c :: rest) = c :: replaceDots rest from by
      simp [replaceDots]] at hr
    obtain ⟨hc, -⟩ := List.cons.inj hr
    exact ⟨rest, by rw [hc]⟩
  | case3 => intro r hr; exact absurd hr (by simp [replaceDots])

theorem replaceDots_two_dots (l : List Char) :
    isPrefixB ['.', '.'] (replaceDots l) = true →
    isPrefixB ['.', '.'] l = true := by
  induction l using replaceDots.induct with
  | case1 rest ih =>
    intro h
    rw [show replaceDots ('.' :: '.' :: '.' :: rest) = '…' :: replaceDots rest
      from by simp [replaceDots]] at h
    simp [isPrefixB] at h
  | case2 c rest hexc ih =>
    intro h
    rw [show replaceDots (c :: rest) = c :: replaceDots rest from by
      simp [replaceDots]] at h
    simp only [isPrefixB, Bool.and_eq_true] at h ⊢
    obtain ⟨hc, h2⟩ := h
    refine ⟨hc, ?_⟩
    cases hx : replaceDots rest with
    | nil => rw [hx] at h2; simp [isPrefixB] at h2
    | cons d ds =>
      rw [hx] at h2
      simp only [isPrefixB, Bool.and_eq_true] at h2
      have hd : d = '.' := by
        have := h2.1
        exact (beq_iff_eq.mp this).symm
      obtain ⟨q, hq⟩ := replaceDots_head_dot rest ds (by rw [hx, hd])
      rw [hq]
      simp [isPrefixB]
  | case3 => intro h; simp [replaceDots, isPrefixB] at h

theorem hasTriple_replaceDots (l : List Char) :
    hasTriple (replaceDots l) = false := by
  induction l using replaceDots.induct with
  | case1 rest ih =>
    rw [show replaceDots ('.' :: '.' :: '.' :: rest) = '…' :: replaceDots rest
      from by simp [replaceDots]]
    have hne : ('.' == '…') = false := by decide
    simp only [hasTriple, containsB, Bool.or_eq_false_iff] at ih ⊢
    constructor
    · simp [dots3, isPrefixB, hne]
    · exact ih
  | case2 c rest hexc ih =>
    rw [show replaceDots (c :: rest) = c :: replaceDots rest from by
      simp [replaceDots]]
    simp only [hasTriple, containsB, Bool.or_eq_false_iff] at ih ⊢
    refine ⟨?_, ih⟩
    by_cases hc : c = '.'
    · subst hc
      cases hp : isPrefixB ['.', '.'] (replaceDots rest) with
      | false => simp [dots3, isPrefixB, hp]
      | true =>
        exfalso
        have h2 := replaceDots_two_dots rest hp
        cases rest with
        | nil => simp [isPrefixB] at h2
        | cons d ds =>
          cases ds with
          | nil => simp [isPrefixB] at h2
          | cons e es =>
            simp only [isPrefixB, Bool.and_eq_true] at h2
            have hd : d = '.' := (beq_iff_eq.mp h2.1).symm
            have he : e = '.' := (beq_iff_eq.mp h2.2.1).symm
            exact hexc es rfl (by rw [hd, he])
    · have hbc : ('.' == c) = false :=
        beq_eq_false_iff_ne.mpr (fun e => hc e.symm)
      simp [dots3, isPrefixB, hbc]
  | case3 => rfl

theorem startsWsDot_replaceDots (l : List Char) :
    startsWsDot (replaceDots l) = true → startsWsDot l = true := by
  induction l using replaceDots.induct with
  | case1 rest ih =>
    intro h
    rw [show replaceDots ('.' :: '.' :: '.' :: rest) = '…' :: replaceDots rest
      from by simp [replaceDots]] at h
    have h1 : ('…' == '.') = false := by decide
    have h2 : isWs '…' = false := by decide
    simp [startsWsDot, h1, h2] at h
  | case2 c rest hexc ih =>
    intro h
    rw [show replaceDots (c :: rest) = c :: replaceDots rest from by
      simp [replaceDots]] at h
    simp only [startsWsDot, Bool.or_eq_true, Bool.and_eq_true] at h ⊢
    rcases h with h | ⟨hw, hs⟩
    · exact Or.inl h
    · exact Or.inr ⟨hw, ih hs⟩
  | case3 => intro h; simp [replaceDots, startsWsDot] at h

theorem hasWsDot_replaceDots (l : List Char) :
    hasWsDot (replaceDots l) = true → hasWsDot l = true := by
  induction l using replaceDots.induct with
  | case1 rest ih =>
    intro h
    rw [show replaceDots ('.' :: '.' :: '.' :: rest) = '…' :: replaceDots rest
      from by simp [replaceDots]] at h
    have h2 : isWs '…' = false := by decide
    simp only [hasWsDot, h2, Bool.false_and, Bool.false_or] at h
    have h4 : isWs '.' = false := by decide
    simp [hasWsDot, h4, ih h]
  | case2 c rest hexc ih =>
    intro h
    rw [show replaceDots (c :: rest) = c :: replaceDots rest from by
      simp [replaceDots]] at h
    simp only [hasWsDot, Bool.or_eq_true, Bool.and_eq_true] at h ⊢
    rcases h with ⟨hw, hs⟩ | h
    · exact Or.inl ⟨hw, startsWsDot_replaceDots rest hs⟩
    · exact Or.inr (ih h)
  | case3 => intro h; simp [replaceDots, hasWsDot] at h

theorem hasWsDot_replaceDots_false {l : List Char} (h : hasWsDot l = false) :
    hasWsDot (replaceDots l) = false := by
  cases hx : hasWsDot (replaceDots l) with
  | false => rfl
  | true => exact absurd (hasWsDot_replaceDots l hx) (by simp [h])

theorem normalize_fix {s : List Char} (h : hasWsDot s = false) :
    normalizeOut (normalizeOut s) = normalizeOut s := by
  have h1 : hasWsDot (replaceDots s) = false := hasWsDot_replaceDots_false h
  have h2 : normalizeOut s = replaceDots s := by
    simp only [normalizeOut]
    exact collapseWsDot_id h1
  rw [h2]
  simp only [normalizeOut]
  rw [replaceDots_id _ (hasTriple_replaceDots s)]
  exact collapseWsDot_id h1

/-- C9 amended: the final normalization is not idempotent on arbitrary
strings (collapsing whitespace before periods can create a new literal
triple dot, see the counterexample), but it is stable from the second
application on, and it is idempotent on any string with no whitespace
before a period. -/
theorem normalize_stable :
    (∀ s : List Char, normalizeOut (normalizeOut (normalizeOut s)) =
      normalizeOut (normalizeOut s)) ∧
    (∀ s : List Char, hasWsDot s = false →
      normalizeOut (normalizeOut s) = normalizeOut s) := by
  constructor
  · intro s
    exact normalize_fix (by
      simp only [normalizeOut]
      exact hasWsDot_collapseWsDot _)
  · intro s h
    exact normalize_fix h

/-- C9 counterexample: on `"a . . ."` the whitespace collapse produces
`"a..."`, which a second application rewrites to `"a…"`, so applying the
normalization twice differs from applying it once. -/
theorem normalize_not_idempotent_cex :
    normalizeOut (normalizeOut ("a . . .".data)) ≠
      normalizeOut ("a . . .".data) := by
  decide

/-- C9 witness: stability from the second application on the
counterexample input, and idempotence on a clean input. -/
theorem normalize_stable_witness :
    normalizeOut (normalizeOut (normalizeOut ("a . . .".data))) =
      normalizeOut (normalizeOut ("a . . .".data)) ∧
    hasWsDot ("ok.".data) = false ∧
    normalizeOut (normalizeOut ("ok.".data)) = normalizeOut ("ok.".data) :=
  ⟨normalize_stable.1 ("a . . .".data), by decide,
   normalize_stable.2 ("ok.".data) (by decide)⟩

theorem hasWsDot_pattern (pre : List Char) {c : Char} (post : List Char)
    (hw : isWs c = true) : hasWsDot (pre ++ c :: '.' :: post) = true := by
  induction pre with
  | nil => simp [hasWsDot, startsWsDot, hw]
  | cons d pre ih => simp [hasWsDot, ih]

theorem hasWsDot_format_for_tts (t : List Char) :
    hasWsDot (format_for_tts t) = false := by
  simp only [format_for_tts]
  split
  · rename_i h
    have h2 : strip t = [] := by simpa using h
    rw [h2]
    rfl
  · simp only [normalizeOut]
    exact hasWsDot_collapseWsDot _

/-- C10: the output of `format_for_tts` never has a whitespace character
(space, tab, newline, and the other `\s` characters) immediately before a
period; in particular the paragraph-break newlines before a line that
begins with a bare period are absorbed, as on the caution input
`"be careful.."`. -/
theorem no_ws_before_period :
    (∀ (t pre : List Char) (c : Char) (post : List Char),
      format_for_tts t = pre ++ c :: '.' :: post → isWs c = false) ∧
    format_for_tts ("be careful..".data) = "be careful..".data := by
  refine ⟨?_, by decide⟩
  intro t pre c post h
  cases hw : isWs c with
  | false => rfl
  | true =>
    have h0 := hasWsDot_format_for_tts t
    rw [h, hasWsDot_pattern pre post hw] at h0
    exact absurd h0 (by decide)

/-- C10 witness: a concrete decomposition of a concrete output around a
period. -/
theorem no_ws_before_period_witness :
    format_for_tts ("be careful..".data) =
      ("be carefu".data) ++ 'l' :: '.' :: (".".data) ∧
    isWs 'l' = false :=
  ⟨by decide,
   no_ws_before_period.1 ("be careful..".data) ("be carefu".data) 'l'
     (".".data) (by decide)⟩

theorem isPrefixB_self_append (a b : List Char) : isPrefixB a (a ++ b) = true := by
  induction a with
  | nil => rfl
  | cons c cs ih => simp [isPrefixB, ih]

theorem endsWithB_append (s p : List Char) : endsWithB (s ++ p) p = true := by
  simp only [endsWithB, List.reverse_append]
  exact isPrefixB_self_append _ _

theorem isPrefixB_iff {a b : List Char} :
    isPrefixB a b = true ↔ ∃ c, b = a ++ c := by
  induction a generalizing b with
  | nil => simp [isPrefixB]
  | cons x xs ih =>
    cases b with
    | nil => simp [isPrefixB]
    | cons y ys =>
      simp only [isPrefixB, Bool.and_eq_true, beq_iff_eq, ih]
      constructor
      · rintro ⟨rfl, c, rfl⟩
        exact ⟨c, rfl⟩
      · rintro ⟨c, hc⟩
        obtain ⟨h1, h2⟩ := List.cons.inj hc
        exact ⟨h1.symm, c, h2⟩

theorem endsWithB_iff {s p : List Char} :
    endsWithB s p = true ↔ ∃ pre, s = pre ++ p := by
  simp only [endsWithB, isPrefixB_iff]
  constructor
  · rintro ⟨c, hc⟩
    refine ⟨c.reverse, ?_⟩
    have h2 := congrArg List.reverse hc
    simpa using h2
  · rintro ⟨pre, rfl⟩
    exact ⟨pre.reverse, by simp⟩

theorem bufferGo_ne_nil (limit : Nat) :
    ∀ (ss buffer : List (List Char)),
      (buffer = [] → ss ≠ []) → bufferGo limit buffer ss ≠ [] := by
  intro ss
  induction ss with
  | nil =>
    intro buffer h
    have hb : buffer ≠ [] := fun e => (h e) rfl
    have hb2 : buffer.isEmpty = false := by
      cases buffer with
      | nil => exact absurd rfl hb
      | cons a as => rfl
    simp [bufferGo, hb2]
  | cons s rest ih =>
    intro buffer h
    simp only [bufferGo]
    split
    · simp
    · exact ih (buffer ++ [s]) (fun e => absurd e (by simp))

theorem split_sentences_ne_nil (text : List Char) :
    split_sentences text ≠ [] := by
  simp only [split_sentences]
  split
  · simp
  · rename_i h
    simpa using h

theorem soften_ne_nil (tone : List Char) {ss : List (List Char)}
    (h : ss ≠ []) : soften_existing_name ss tone ≠ [] := by
  simp only [soften_existing_name]
  split
  · exact h
  · cases ss with
    | nil => exact absurd rfl h
    | cons s rest => simp

theorem applyLift_getLast (tone : List Char) {ls : List (List Char)}
    (h : ls ≠ []) :
    ∃ last, ls.getLast? = some last ∧
      applyLift tone ls = ls.dropLast ++ [liftLine tone last] := by
  obtain ⟨last, hl⟩ :=
    Option.isSome_iff_exists.mp (List.getLast?_isSome.mpr h)
  exact ⟨last, hl, by simp [applyLift, hl]⟩

theorem liftLine_soft_ends (tone last : List Char)
    (h : (tone == TONE_ENCOURAGING || tone == TONE_REASSURING ||
      tone == TONE_PLAYFUL) = true) :
    endsWithB (liftLine tone last) bang = true ∨
    endsWithB (liftLine tone last) ell1 = true ∨
    endsWithB (liftLine tone last) dots3 = true := by
  simp only [liftLine]
  rw [if_pos h]
  split
  · rename_i h2
    simp only [Bool.or_eq_true] at h2
    rcases h2 with (h4 | h4) | h4
    · exact Or.inl h4
    · exact Or.inr (Or.inl h4)
    · exact Or.inr (Or.inr h4)
  · exact Or.inr (Or.inr (endsWithB_append last dots3))

theorem liftLine_bang_ends (tone last : List Char)
    (hsoft : (tone == TONE_ENCOURAGING || tone == TONE_REASSURING ||
      tone == TONE_PLAYFUL) = false)
    (h : (tone == TONE_HAPPY || tone == TONE_EXCITED) = true) :
    endsWithB (liftLine tone last) bang = true := by
  simp only [liftLine]
  rw [if_neg (by simp [hsoft]), if_pos h]
  split
  · assumption
  · exact endsWithB_append last bang

theorem dropWhile_blank_append (ls : List (List Char)) {x : List Char}
    (hx : isBlank x = false) :
    ∃ F, (ls ++ [x]).dropWhile isBlank = F ++ [x] := by
  induction ls with
  | nil => exact ⟨[], by simp [List.dropWhile_cons, hx]⟩
  | cons a as ih =>
    rw [List.cons_append, List.dropWhile_cons]
    split
    · exact ih
    · exact ⟨a :: as, rfl⟩

theorem trimBlankEnds_last (ls : List (List Char)) {x : List Char}
    (hx : isBlank x = false) :
    ∃ ys, trimBlankEnds (ls ++ [x]) = ys ++ [x] := by
  obtain ⟨F, hF⟩ := dropWhile_blank_append ls hx
  refine ⟨F, ?_⟩
  simp only [trimBlankEnds, hF]
  rw [List.reverse_append]
  simp only [List.reverse_cons, List.reverse_nil, List.nil_append,
    List.singleton_append]
  rw [List.dropWhile_cons, if_neg (by simp [hx])]
  simp

theorem joinNN_last : ∀ (ys : List (List Char)) (x : List Char),
    ∃ pre, joinNN (ys ++ [x]) = pre ++ x := by
  intro ys
  induction ys with
  | nil => exact fun x => ⟨[], rfl⟩
  | cons a as ih =>
    intro x
    obtain ⟨pre, hp⟩ := ih x
    cases as with
    | nil =>
      refine ⟨a ++ ['\n', '\n'], ?_⟩
      have h1 : joinNN (([a] ++ [x] : List (List Char))) =
          a ++ '\n' :: '\n' :: x := rfl
      rw [h1]
      simp
    | cons b bs =>
      refine ⟨a ++ '\n' :: '\n' :: pre, ?_⟩
      have h1 : joinNN (((a :: b :: bs) ++ [x] : List (List Char))) =
          a ++ '\n' :: '\n' :: joinNN ((b :: bs) ++ [x]) := rfl
      rw [h1, hp]
      simp

theorem replaceDots_bang : ∀ u : List Char,
    ∃ v, replaceDots (u ++ bang) = v ++ bang := by
  intro u
  induction u using replaceDots.induct with
  | case1 rest ih =>
    obtain ⟨v, hv⟩ := ih
    refine ⟨'…' :: v, ?_⟩
    rw [show ('.' :: '.' :: '.' :: rest) ++ bang =
      '.' :: '.' :: '.' :: (rest ++ bang) from rfl]
    rw [show replaceDots ('.' :: '.' :: '.' :: (rest ++ bang)) =
      '…' :: replaceDots (rest ++ bang) from by simp [replaceDots]]
    rw [hv]
    rfl
  | case2 c rest hexc ih =>
    obtain ⟨v, hv⟩ := ih
    refine ⟨c :: v, ?_⟩
    rw [show (c :: rest) ++ bang = c :: (rest ++ bang) from rfl]
    have hexc2 : ∀ r1 : List Char, c = '.' →
        rest ++ bang = '.' :: '.' :: r1 → False := by
      intro r1 hc hr
      cases rest with
      | nil => simp [bang] at hr
      | cons d ds =>
        cases ds with
        | nil =>
          rw [show ([d] ++ bang : List Char) = [d, '!'] from rfl] at hr
          obtain ⟨-, h2⟩ := List.cons.inj hr
          obtain ⟨h3, -⟩ := List.cons.inj h2
          exact absurd h3 (by decide)
        | cons e es =>
          rw [show ((d :: e :: es) ++ bang : List Char) =
            d :: e :: (es ++ bang) from rfl] at hr
          obtain ⟨h1, h2⟩ := List.cons.inj hr
          obtain ⟨h3, -⟩ := List.cons.inj h2
          exact hexc es hc (by rw [h1, h3])
    rw [show replaceDots (c :: (rest ++ bang)) =
      c :: replaceDots (rest ++ bang) from by simp [replaceDots]]
    rw [hv]
    rfl
  | case3 => exact ⟨[], by decide⟩

theorem collapseWsDot_bang : ∀ u : List Char,
    ∃ v, collapseWsDot (u ++ bang) = v ++ bang := by
  intro u
  induction u with
  | nil => exact ⟨[], by decide⟩
  | cons c rest ih =>
    obtain ⟨v, hv⟩ := ih
    rw [List.cons_append]
    simp only [collapseWsDot]
    split
    · exact ⟨v, hv⟩
    · exact ⟨c :: v, by rw [hv]; rfl⟩

theorem assemble_upbeat_last (tone : List Char) (ss : List (List Char))
    (hup : tone ∈ upbeatTones) (hss : ss ≠ []) :
    ∃ last, (assembleLines tone ss).getLast? = some last ∧
      (endsWithB last bang = true ∨ endsWithB last ell1 = true ∨
        endsWithB last dots3 = true) := by
  have hbuf : bufferLines 80 ss ≠ [] :=
    bufferGo_ne_nil 80 ss [] (fun _ => hss)
  obtain ⟨bl, hbl, happ⟩ := applyLift_getLast tone hbuf
  simp only [upbeatTones, List.mem_cons, List.not_mem_nil, or_false] at hup
  rcases hup with rfl | rfl | rfl | rfl | rfl
  · refine ⟨liftLine TONE_ENCOURAGING bl, ?_,
      liftLine_soft_ends _ bl (by decide)⟩
    simp only [assembleLines]
    rw [if_neg (by decide), if_pos (by decide), happ]
    exact List.getLast?_concat _
  · refine ⟨liftLine TONE_HAPPY bl, ?_,
      Or.inl (liftLine_bang_ends _ bl (by decide) (by decide))⟩
    simp only [assembleLines]
    rw [if_neg (by decide), if_pos (by decide), happ]
    exact List.getLast?_concat _
  · refine ⟨liftLine TONE_REASSURING bl, ?_,
      liftLine_soft_ends _ bl (by decide)⟩
    simp only [assembleLines]
    rw [if_neg (by decide), if_pos (by decide), happ]
    exact List.getLast?_concat _
  · refine ⟨liftLine TONE_PLAYFUL bl, ?_,
      liftLine_soft_ends _ bl (by decide)⟩
    simp only [assembleLines]
    rw [if_neg (by decide), if_pos (by decide), happ]
    exact List.getLast?_concat _
  · refine ⟨liftLine TONE_EXCITED bl, ?_,
      Or.inl (liftLine_bang_ends _ bl (by decide) (by decide))⟩
    simp only [assembleLines]
    rw [if_neg (by decide), if_pos (by decide), happ]
    exact List.getLast?_concat _

theorem format_bang_aux (t tone : List Char)
    (htone : detect_tone (strip t) = tone)
    (hsoft : (tone == TONE_ENCOURAGING || tone == TONE_REASSURING ||
      tone == TONE_PLAYFUL) = false)
    (hbang : (tone == TONE_HAPPY || tone == TONE_EXCITED) = true)
    (hsymp : (tone == TONE_SYMPATHETIC || tone == TONE_BUMMED) = false)
    (hcont : upbeatTones.contains tone = true)
    (hne : strip t ≠ []) :
    ∃ u, format_for_tts t = u ++ bang := by
  have htxt : (strip t == []) = false := by simpa using hne
  have hsent : soften_existing_name (split_sentences (strip t))
      (detect_tone (strip t)) ≠ [] :=
    soften_ne_nil _ (split_sentences_ne_nil _)
  have hbuf : bufferLines 80 (soften_existing_name
      (split_sentences (strip t)) (detect_tone (strip t))) ≠ [] :=
    bufferGo_ne_nil 80 _ [] (fun _ => hsent)
  obtain ⟨bl, hbl, happ⟩ := applyLift_getLast (detect_tone (strip t)) hbuf
  have hformat : format_for_tts t =
      normalizeOut (if trimBlankEnds (assembleLines (detect_tone (strip t))
          (soften_existing_name (split_sentences (strip t))
            (detect_tone (strip t)))) == [] then strip t
        else joinNN (trimBlankEnds (assembleLines (detect_tone (strip t))
          (soften_existing_name (split_sentences (strip t))
            (detect_tone (strip t)))))) := by
    simp only [format_for_tts]
    rw [if_neg (by simp [htxt])]
  rw [htone] at happ hformat
  have hassem : assembleLines tone
      (soften_existing_name (split_sentences (strip t)) tone) =
      (bufferLines 80 (soften_existing_name (split_sentences (strip t))
        tone)).dropLast ++ [liftLine tone bl] := by
    simp only [assembleLines]
    rw [if_neg (by simp [hsymp]), if_pos hcont]
    exact happ
  obtain ⟨L0, hL0⟩ :=
    endsWithB_iff.mp (liftLine_bang_ends tone bl hsoft hbang)
  rw [hassem, hL0] at hformat
  have hblank : isBlank (L0 ++ bang) = false := by
    simp only [isBlank, bang]
    rw [strip_append_nonws L0 (by decide)]
    simp
  obtain ⟨ys, hys⟩ := trimBlankEnds_last
    ((bufferLines 80 (soften_existing_name (split_sentences (strip t))
      tone)).dropLast) hblank
  rw [hys, if_neg (by simp)] at hformat
  obtain ⟨pre, hpre⟩ := joinNN_last ys (L0 ++ bang)
  rw [hpre,
    show pre ++ (L0 ++ bang) = (pre ++ L0) ++ bang from
      (List.append_assoc pre L0 bang).symm] at hformat
  obtain ⟨v1, hv1⟩ := replaceDots_bang (pre ++ L0)
  obtain ⟨v2, hv2⟩ := collapseWsDot_bang v1
  refine ⟨v2, ?_⟩
  rw [hformat]
  simp only [normalizeOut]
  rw [hv1, hv2]

/-- C5 amended: for every non-blank input whose tone is in the upbeat
group, the closing embellishment applies to the last assembled line,
which therefore ends in "!", "…", or "..." before the final
normalization; for the happy/excited tones the final output itself ends
in "!".  (For encouraging/reassuring/playful the post-normalization
output can instead end in a bare ".", because the "..."-to-"…" replace
can leave one dot of a longer run: see the counterexample.) -/
theorem upbeat_closing (t : List Char) (hne : strip t ≠ [])
    (hup : detect_tone (strip t) ∈ upbeatTones) :
    (∃ last, (assembleLines (detect_tone (strip t))
        (soften_existing_name (split_sentences (strip t))
          (detect_tone (strip t)))).getLast? = some last ∧
      (endsWithB last bang = true ∨ endsWithB last ell1 = true ∨
        endsWithB last dots3 = true)) ∧
    ((detect_tone (strip t) = TONE_HAPPY ∨
      detect_tone (strip t) = TONE_EXCITED) →
      ∃ u, format_for_tts t = u ++ bang) := by
  refine ⟨assemble_upbeat_last _ _ hup
    (soften_ne_nil _ (split_sentences_ne_nil _)), ?_⟩
  rintro (h | h)
  · exact format_bang_aux t TONE_HAPPY h (by decide) (by decide) (by decide)
      (by decide) hne
  · exact format_bang_aux t TONE_EXCITED h (by decide) (by decide) (by decide)
      (by decide) hne

/-- C5 counterexample: the encouraging input "keep going…." (ellipsis
glyph then period) shapes to the single-line output "keep going……."
whose final line ends in a bare period, not in "!" or "…": the appended
"..." merges with the trailing period into four dots, of which the
normalization rewrites only the first three. -/
theorem upbeat_closing_cex :
    detect_tone (strip ("keep going….".data)) = TONE_ENCOURAGING ∧
    strip ("keep going….".data) ≠ [] ∧
    format_for_tts ("keep going….".data) = "keep going…….".data ∧
    (format_for_tts ("keep going….".data)).contains '\n' = false ∧
    endsWithB (format_for_tts ("keep going….".data)) bang = false ∧
    endsWithB (format_for_tts ("keep going….".data)) ell1 = false := by
  decide

/-- C5 witness: the happy input "congrats". -/
theorem upbeat_closing_witness :
    strip ("congrats".data) ≠ [] ∧
    detect_tone (strip ("congrats".data)) ∈ upbeatTones ∧
    (∃ last, (assembleLines (detect_tone (strip ("congrats".data)))
        (soften_existing_name (split_sentences (strip ("congrats".data)))
          (detect_tone (strip ("congrats".data))))).getLast? = some last ∧
      (endsWithB last bang = true ∨ endsWithB last ell1 = true ∨
        endsWithB last dots3 = true)) ∧
    (∃ u, format_for_tts ("congrats".data) = u ++ bang) :=
  ⟨by decide, by decide,
   (upbeat_closing ("congrats".data) (by decide) (by decide)).1,
   (upbeat_closing ("congrats".data) (by decide) (by decide)).2 (by decide)⟩
